import Mathlib

/-!
Verification of the gpsresilience event-detection core against its
natural-language specification.

The development shallowly embeds the two Python 2 source modules:

* `mahalanobis.py` — the `GroupedStats` moment accumulator (count, sum of
  vectors, sum of outer products), mean/covariance derivation, leave-one-out
  statistics, missing-coordinate subsetting, Mahalanobis distance and
  per-coordinate standardization.  Numeric vectors are embedded as
  `Fin n → ℚ` (numpy column vectors of floats, modelled exactly over ℚ);
  n×n numpy matrices become `Matrix (Fin n) (Fin n) ℚ`.
* `eventDetection.py` — `TimeSegment` / `TimeSegmentList`: the doubly linked
  chain of inclusive index ranges is embedded as a `List TimeSegment` in
  chain order (head first); the `lookup_table` dict key set is the set of
  bounds of live chain members, and the `Queue.PriorityQueue` is embedded as
  a list kept sorted by the source comparator (minimum at the head).

The source is Python 2 (print statements, `from Queue import PriorityQueue`):
`/` between two Python ints is floor division.  This matters for the
covariance bias-correction factor `self.count / (self.count - 1)` and is
embedded with `Int.fdiv`.

Unbounded `while` loops are embedded as fuel-indexed recursions; the
top-level wrappers supply a fuel precomputed from the input size, and the
termination theorems prove that this fuel is never exhausted.
-/

set_option autoImplicit false

namespace GpsResilience

/-! ### mahalanobis.py: GroupedStats -/

/-- Modelled from the spec: `tools.allNonzero` (tools.py is not part of the
provided sources).  Per the spec, a coordinate value of exactly zero is the
sentinel for "missing", and `allNonzero` holds of a vector that is fully
non-missing, i.e. all coordinates are nonzero (mahalanobis.py lines 23, 95,
109 use it exactly this way, with the comment "0 is assumed to be missing"). -/
def allNonzero {n : ℕ} (v : Fin n → ℚ) : Bool :=
  decide (∀ i, v i ≠ 0)

/-- `GroupedStats` (mahalanobis.py lines 15-26): moment statistics of a group
of column vectors.  `count` is a Python int (embedded as ℤ); `s_x` is the sum
of the accumulated vectors and `s_xxt` the sum of their outer products. -/
structure GroupedStats (n : ℕ) where
  count : ℤ
  s_x : Fin n → ℚ
  s_xxt : Matrix (Fin n) (Fin n) ℚ

/-- `GroupedStats.__init__` (lines 16-26): starting from zeroed moments, add
each vector that is fully non-missing; vectors with any missing coordinate
are skipped entirely. -/
def GroupedStats.ofVectors {n : ℕ} (vs : List (Fin n → ℚ)) : GroupedStats n :=
  vs.foldl
    (fun g v =>
      if allNonzero v then
        { count := g.count + 1
          s_x := fun i => g.s_x i + v i
          s_xxt := Matrix.of fun i j => g.s_xxt i j + v i * v j }
      else g)
    { count := 0, s_x := fun _ => 0, s_xxt := Matrix.of fun _ _ => 0 }

/-- `GroupedStats.getMeanAndCov` (lines 47-54).  `mean = s_x / count` is numpy
float division, embedded exactly over ℚ.  The final factor
`(self.count / (self.count - 1))` is Python 2 integer division between two
ints, i.e. floor division, embedded as `Int.fdiv`. -/
def GroupedStats.getMeanAndCov {n : ℕ} (g : GroupedStats n) :
    (Fin n → ℚ) × Matrix (Fin n) (Fin n) ℚ :=
  let mean : Fin n → ℚ := fun i => g.s_x i / (g.count : ℚ)
  (mean,
    Matrix.of fun i j =>
      (g.s_xxt i j / (g.count : ℚ) - mean i * mean j) *
        ((Int.fdiv g.count (g.count - 1) : ℤ) : ℚ))

/-- The covariance formula as the spec states it (spec §3: "covariance =
sumOuter/count − mean·mean^t, bias-corrected by factor count/(count−1)"),
with the bias-correction factor taken as the exact rational count/(count−1).
Stated separately from `GroupedStats.getMeanAndCov` so the two can be
compared; they differ because the source performs the factor computation in
Python 2 integer division. -/
def specMeanAndCov {n : ℕ} (g : GroupedStats n) :
    (Fin n → ℚ) × Matrix (Fin n) (Fin n) ℚ :=
  let mean : Fin n → ℚ := fun i => g.s_x i / (g.count : ℚ)
  (mean,
    Matrix.of fun i j =>
      (g.s_xxt i j / (g.count : ℚ) - mean i * mean j) *
        ((g.count : ℚ) / ((g.count : ℚ) - 1)))

/-- `GroupedStats.generateLeave1Stats` (lines 90-101): copy the stats; if the
left-out vector is fully non-missing, subtract its contribution from count,
sum, and sum of outer products; otherwise return the copy unchanged (the
source's `copy()` produces a value identical to `self`, so the embedding
returns `g` itself in that branch). -/
def GroupedStats.generateLeave1Stats {n : ℕ} (g : GroupedStats n)
    (vect : Fin n → ℚ) : GroupedStats n :=
  if allNonzero vect then
    { count := g.count - 1
      s_x := fun i => g.s_x i - vect i
      s_xxt := Matrix.of fun i j => g.s_xxt i j - vect i * vect j }
  else g

/-- The row indices of `obs` holding a nonzero value, in increasing order:
`valid_ids = ravel(nonzero(obs)[0])` (line 72). -/
def validIds {n : ℕ} (obs : Fin n → ℚ) : List (Fin n) :=
  (List.finRange n).filter (fun i => decide (obs i ≠ 0))

/-- `GroupedStats.getIncompleteMeanAndCov` (lines 67-80): restrict the full
mean, covariance and observation to the coordinates of `obs` that are
present (nonzero), preserving their relative order. -/
def GroupedStats.getIncompleteMeanAndCov {n : ℕ} (g : GroupedStats n)
    (obs : Fin n → ℚ) :
    (Fin (validIds obs).length → ℚ) ×
      Matrix (Fin (validIds obs).length) (Fin (validIds obs).length) ℚ ×
      (Fin (validIds obs).length → ℚ) :=
  let mc := g.getMeanAndCov
  (fun j => mc.1 ((validIds obs).get j),
    Matrix.of fun j l => mc.2 ((validIds obs).get j) ((validIds obs).get l),
    fun j => obs ((validIds obs).get j))

/-- The matrix inverse that `numpy.linalg.inv` computes on a nonsingular
input: `det⁻¹ • adjugate`.  Over a field this agrees with Mathlib's
noncomputable `Matrix.inv` when the determinant is nonzero, but is
executable. -/
def qInv {k : ℕ} (A : Matrix (Fin k) (Fin k) ℚ) : Matrix (Fin k) (Fin k) ℚ :=
  (A.det)⁻¹ • A.adjugate

/-- The (0,0) entry of the 1×1 product `dᵗ · M · d` (line 114's
`transpose(vect - mean) * inv(cov) * (vect - mean)`, indexed at `[0,0]`). -/
def quadFormEntry {k : ℕ} (d : Fin k → ℚ) (M : Matrix (Fin k) (Fin k) ℚ) : ℚ :=
  ∑ i, ∑ j, d i * M i j * d j

/-- `GroupedStats.mahalanobisDistance` (lines 108-120), modelled up to the
final float `sqrt`: the returned value is `mahal[0,0]`, the square of the
distance the source returns (float sqrt has no exact embedding; sqrt is
monotone and injective on nonnegative reals, so nothing is lost).

The try/except at lines 113-120 catches every exception, prints diagnostics
and falls through, so the Python function returns `None` in the failure
cases; the embedding returns `none` exactly there:
* `numpy.linalg.inv(cov)` raises `LinAlgError` precisely on a singular
  matrix, i.e. (exactly, over ℚ) when `det = 0`;
* when the (sub)dimension is 0 the inverse succeeds (0×0, determinant 1) but
  `mahal[0,0]` raises `IndexError`, also caught.

The dispatch between the full and subset statistics follows lines 109-112. -/
def GroupedStats.mahalanobisDistanceSq {n : ℕ} (g : GroupedStats n)
    (vect : Fin n → ℚ) : Option ℚ :=
  if allNonzero vect then
    let mc := g.getMeanAndCov
    if mc.2.det = 0 then none
    else if n = 0 then none
    else some (quadFormEntry (fun i => vect i - mc.1 i) (qInv mc.2))
  else
    let mcv := g.getIncompleteMeanAndCov vect
    if mcv.2.1.det = 0 then none
    else if (validIds vect).length = 0 then none
    else some (quadFormEntry (fun j => mcv.2.2 j - mcv.1 j) (qInv mcv.2.1))

/-- The determinant of the covariance matrix that
`GroupedStats.mahalanobisDistance` actually inverts for the observation
`vect`: the full covariance when `vect` has no missing coordinate, the
missing-subset covariance otherwise. -/
def usedCovDet {n : ℕ} (g : GroupedStats n) (vect : Fin n → ℚ) : ℚ :=
  if allNonzero vect then g.getMeanAndCov.2.det
  else (g.getIncompleteMeanAndCov vect).2.1.det

/-- The dimension of the covariance matrix used for `vect` (n for a fully
non-missing vector, the number of valid coordinates otherwise). -/
def usedDim {n : ℕ} (vect : Fin n → ℚ) : ℕ :=
  if allNonzero vect then n else (validIds vect).length

/-- The squared Mahalanobis distance value produced in the success case. -/
def usedQuadForm {n : ℕ} (g : GroupedStats n) (vect : Fin n → ℚ) : ℚ :=
  if allNonzero vect then
    quadFormEntry (fun i => vect i - g.getMeanAndCov.1 i) (qInv g.getMeanAndCov.2)
  else
    let mcv := g.getIncompleteMeanAndCov vect
    quadFormEntry (fun j => mcv.2.2 j - mcv.1 j) (qInv mcv.2.1)

/-- `GroupedStats.standardizeVector` (lines 129-148).  The per-coordinate
divisor is the float `sqrt` of the diagonal covariance entry; float sqrt has
no exact rational embedding, so the embedding abstracts it as an arbitrary
function `sq : ℚ → ℚ` — every property proved below holds for every choice
of `sq`, hence in particular for the floating-point one.  After the
element-wise arithmetic, every coordinate at which the input holds the
missing sentinel 0 is overwritten with 0 (lines 144-146). -/
def GroupedStats.standardizeVector {n : ℕ} (sq : ℚ → ℚ) (g : GroupedStats n)
    (vect : Fin n → ℚ) : Fin n → ℚ :=
  let mc := g.getMeanAndCov
  let std : Fin n → ℚ := fun i => (vect i - mc.1 i) / sq (mc.2 i i)
  fun i => if vect i = 0 then 0 else std i

/-! ### eventDetection.py: TimeSegment and TimeSegmentList

The doubly linked chain is embedded as a `List TimeSegment` in chain order
(the Python `head` is the first list element, `next` pointers run down the
list).  The chain is identified by the bounds `(start_id, end_id)` of its
members: `mergeSegment` keeps the `lookup_table` dict key set equal to the
set of bounds of live chain members (it deletes exactly the removed nodes
and inserts exactly the new one), so the membership test at line 267 is the
test against the live bounds, and a segment handed around by value is merged
by locating its bounds in the chain. -/

/-- `TimeSegment` (eventDetection.py lines 36-46): an inclusive index range
with a boolean state.  The `prev`/`next` pointers are represented by list
position in the enclosing chain. -/
structure TimeSegment where
  start_id : ℕ
  end_id : ℕ
  state : Bool
deriving DecidableEq

/-- `TimeSegment.duration` (lines 71-72): `end_id - start_id + 1`, a Python
int (embedded as ℤ; start and end are both inclusive). -/
def TimeSegment.duration (s : TimeSegment) : ℤ :=
  (s.end_id : ℤ) - (s.start_id : ℤ) + 1

/-- `TimeSegment.__cmp__` (lines 53-68), restricted to comparison between two
segments (the `other == None` branch at lines 55-56 is never exercised by the
priority queue, which only compares queued segments with each other).
Python 2 booleans are the ints 0 and 1, so `state` comparison is embedded via
`Bool.toNat`: `False < True`. -/
def cmpSeg (a b : TimeSegment) : ℤ :=
  if a.duration > b.duration then 1
  else if a.duration < b.duration then -1
  else if a.state.toNat < b.state.toNat then 1
  else if a.state.toNat > b.state.toNat then -1
  else 0

/-- `TimeSegmentList.__init__` loop body (lines 123-153), functionally: walk
the scores with the running `prev_state`, the start index of the current run
and the segments closed so far; each time `lnp_list[i] > threshold` differs
from `prev_state`, close the run at `i-1` and open a new one at `i`.  When
the scores are exhausted (`i = len(lnp_list)`), close the final run at the
last index `i-1` (lines 155-173). -/
def buildFrom (threshold : ℚ) :
    List ℚ → ℕ → ℕ → Bool → List TimeSegment → List TimeSegment
  | [], i, start, prev, acc =>
      acc ++ [⟨start, i - 1, prev⟩]
  | x :: rest, i, start, prev, acc =>
      let cur := decide (threshold < x)
      if cur ≠ prev then
        buildFrom threshold rest (i + 1) i cur (acc ++ [⟨start, i - 1, prev⟩])
      else
        buildFrom threshold rest (i + 1) start prev acc

/-- `TimeSegmentList.__init__` (lines 113-173).  Line 115 reads
`lnp_list[0]`, which raises `IndexError` on an empty score list: the
embedding returns `none` there and the full chain otherwise. -/
def timeSegmentListInit (lnp_list : List ℚ) (threshold : ℚ) :
    Option (List TimeSegment) :=
  match lnp_list with
  | [] => none
  | x :: _ => some (buildFrom threshold lnp_list 0 0 (decide (threshold < x)) [])

/-- The key set of the `lookup_table` dict: the bounds of the live chain
members (see the section comment above). -/
def segBounds (segs : List TimeSegment) : List (ℕ × ℕ) :=
  segs.map fun s => (s.start_id, s.end_id)

/-- Inner scan of `TimeSegmentList.mergeSegment`: `prv` is the chain element
immediately before the remaining chain `rest`.  When the head of `rest` is
the segment with bounds `bnd`, it is merged with `prv` and (when present) its
successor per `TimeSegment.mergeWithNeighbors` (lines 81-105): the new
segment spans from `prv.start_id` to the successor's `end_id` (or its own
`end_id` when it is last) and takes `prv`'s state.  The result is the
replacement for `prv :: rest` together with the newly built segment. -/
def mergeInner :
    TimeSegment → List TimeSegment → ℕ × ℕ →
      Option (List TimeSegment × TimeSegment)
  | _, [], _ => none
  | prv, cur :: rest, bnd =>
    if (cur.start_id, cur.end_id) = bnd then
      match rest with
      | [] =>
          some ([⟨prv.start_id, cur.end_id, prv.state⟩],
            ⟨prv.start_id, cur.end_id, prv.state⟩)
      | nxt :: rest2 =>
          some (⟨prv.start_id, nxt.end_id, prv.state⟩ :: rest2,
            ⟨prv.start_id, nxt.end_id, prv.state⟩)
    else
      match mergeInner cur rest bnd with
      | none => none
      | some (l, ns) => some (prv :: l, ns)

/-- `TimeSegmentList.mergeSegment` (lines 210-229) merging the live segment
whose bounds are `bnd`: remove it and its neighbors from the chain (and
lookup table), insert the merged replacement built by
`TimeSegment.mergeWithNeighbors` (lines 81-105).  When the merged segment has
no predecessor the new segment spans from its own `start_id` to the
successor's `end_id` and takes the successor's state.  Returns `none` when no
live segment has bounds `bnd`, and also when the chain is the single segment
`bnd` alone: there `mergeWithNeighbors` evaluates `self.next.end_id` with
`self.next = None` and raises `AttributeError`. -/
def mergeByBounds (segs : List TimeSegment) (bnd : ℕ × ℕ) :
    Option (List TimeSegment × TimeSegment) :=
  match segs with
  | [] => none
  | cur :: rest =>
    if (cur.start_id, cur.end_id) = bnd then
      match rest with
      | [] => none
      | nxt :: rest2 =>
          some (⟨cur.start_id, nxt.end_id, nxt.state⟩ :: rest2,
            ⟨cur.start_id, nxt.end_id, nxt.state⟩)
    else
      match mergeInner cur rest bnd with
      | none => none
      | some (l, ns) => some (l, ns)

/-- Result of one of the segment-elimination loops: the final chain, an
uncaught Python exception (`AttributeError` from merging a sole segment), or
exhaustion of the fuel that embeds the unbounded `while` loop. -/
inductive LoopResult
  | done (segs : List TimeSegment)
  | crashed
  | fuelOut
deriving DecidableEq

/-- One pass of `TimeSegmentList.removeSmallSegmentsWithState`
(lines 238-246), as a zipper walk: `before` holds the already-visited prefix
of the chain in reverse, the head of `after` is `current_segment`.  A segment
matching `state` with duration below `threshold` is merged with its
neighbors (consuming the head of `before` and/or `after`), and the merged
segment becomes the new current segment; otherwise the walk advances. -/
def rswsLoop (threshold : ℤ) (state : Bool) :
    ℕ → List TimeSegment → List TimeSegment → LoopResult
  | _, before, [] => .done before.reverse
  | 0, _, _ :: _ => .fuelOut
  | fuel + 1, before, cur :: after =>
    if cur.state = state ∧ cur.duration < threshold then
      match before, after with
      | [], [] => .crashed
      | [], nxt :: after2 =>
          rswsLoop threshold state fuel []
            (⟨cur.start_id, nxt.end_id, nxt.state⟩ :: after2)
      | prv :: before2, [] =>
          rswsLoop threshold state fuel before2
            [⟨prv.start_id, cur.end_id, prv.state⟩]
      | prv :: before2, nxt :: after2 =>
          rswsLoop threshold state fuel before2
            (⟨prv.start_id, nxt.end_id, prv.state⟩ :: after2)
    else
      rswsLoop threshold state fuel (cur :: before) after

/-- `TimeSegmentList.removeSmallSegmentsWithState` (lines 238-246).  The
source's `while current_segment != None` loop is fuel-indexed; the supplied
fuel `2 * length + 1` strictly dominates the loop measure
`before.length + 2 * after.length`, which decreases at every step, so the
fuel is never exhausted (see the termination lemmas below). -/
def removeSmallSegmentsWithState (threshold : ℤ) (state : Bool)
    (segs : List TimeSegment) : LoopResult :=
  rswsLoop threshold state (2 * segs.length + 1) [] segs

/-- Insertion into the embedded priority queue: the queue is a list sorted by
`cmpSeg` with the minimum at the head; a new element goes before the first
strictly greater element.  (Python's `Queue.PriorityQueue` is a binary heap
over `__cmp__`; it extracts a minimal element each `get`, with unspecified
order among elements that compare equal.) -/
def pqInsert (s : TimeSegment) : List TimeSegment → List TimeSegment
  | [] => [s]
  | x :: xs => if cmpSeg s x = -1 then s :: x :: xs else x :: pqInsert s xs

/-- The loop of `TimeSegmentList.removeSmallSegmentsInOrder` (lines 261-273):
pop the minimal queued segment; if its bounds are no longer in the lookup
table, discard it; otherwise merge it, and — when the merged segment is still
shorter than `threshold` — put the popped segment object (NOT the merged
`new_seg`: line 273 reads `pq.put(segment)`) back into the queue. -/
def rssioLoop (threshold : ℤ) :
    ℕ → List TimeSegment → List TimeSegment → LoopResult
  | _, [], segs => .done segs
  | 0, _ :: _, _ => .fuelOut
  | fuel + 1, s :: pq, segs =>
    if (s.start_id, s.end_id) ∈ segBounds segs then
      match mergeByBounds segs (s.start_id, s.end_id) with
      | none => .crashed
      | some (segs2, newSeg) =>
        if newSeg.duration < threshold then
          rssioLoop threshold fuel (pqInsert s pq) segs2
        else
          rssioLoop threshold fuel pq segs2
    else
      rssioLoop threshold fuel pq segs

/-- `TimeSegmentList.removeSmallSegmentsInOrder` (lines 252-273): seed the
priority queue with every segment of duration below `threshold` (lines
255-258), then run the elimination loop.  The `while not pq.empty()` loop is
fuel-indexed; the supplied fuel dominates the strictly decreasing measure
`pq.length + 2 * segs.length` and is never exhausted (theorem below). -/
def removeSmallSegmentsInOrder (threshold : ℤ) (segs : List TimeSegment) :
    LoopResult :=
  let pq := segs.foldl
    (fun acc s => if s.duration < threshold then pqInsert s acc else acc) []
  rssioLoop threshold (pq.length + 2 * segs.length) pq segs

/-- Contiguous-partition predicate: `isContigCover a b segs` holds when the
segments of `segs`, in chain order, have pairwise-disjoint inclusive index
ranges that tile the interval `[a, b]` exactly: the first starts at `a`,
each segment has `start_id ≤ end_id`, each next segment starts one past its
predecessor's end, and the last ends at `b`. -/
def isContigCover : ℕ → ℕ → List TimeSegment → Bool
  | _, _, [] => false
  | a, b, [s] => decide (s.start_id = a ∧ s.end_id = b ∧ a ≤ b)
  | a, b, s :: t :: rest =>
      decide (s.start_id = a ∧ s.start_id ≤ s.end_id) &&
        isContigCover (s.end_id + 1) b (t :: rest)

/-! ### Concrete inputs used by the counterexample, code-bug and witness
theorems below -/

/-- The statistics of the three fully non-missing 1-dimensional vectors
`[1], [2], [3]`: count 3, sum 6, sum of squares 14. -/
def statsA : GroupedStats 1 := GroupedStats.ofVectors [![1], ![2], ![3]]

/-- The statistics of the two fully non-missing 2-dimensional vectors
`[1,1], [2,2]`: count 2; the resulting covariance matrix is constant 1/2 and
therefore singular. -/
def statsB : GroupedStats 2 := GroupedStats.ofVectors [![1, 1], ![2, 2]]

end GpsResilience

namespace GpsResilience

/-! ### Shared evaluation lemmas for the concrete inputs -/

theorem statsA_count : statsA.count = 3 := by
  simp [statsA, GroupedStats.ofVectors, allNonzero, Fin.forall_fin_one]

theorem statsA_s_x : statsA.s_x 0 = 6 := by
  simp [statsA, GroupedStats.ofVectors, allNonzero, Fin.forall_fin_one]
  norm_num

theorem statsA_s_xxt : statsA.s_xxt 0 0 = 14 := by
  simp [statsA, GroupedStats.ofVectors, allNonzero, Fin.forall_fin_one]
  norm_num

theorem statsA_mean : statsA.getMeanAndCov.1 0 = 2 := by
  simp [GroupedStats.getMeanAndCov, statsA_count, statsA_s_x]
  norm_num

theorem statsA_cov : statsA.getMeanAndCov.2 0 0 = 2 / 3 := by
  simp [GroupedStats.getMeanAndCov, statsA_count, statsA_s_x, statsA_s_xxt]
  norm_num

theorem statsB_count : statsB.count = 2 := by
  simp [statsB, GroupedStats.ofVectors, allNonzero, Fin.forall_fin_two]

theorem statsB_s_x : ∀ i, statsB.s_x i = 3 := by
  intro i
  fin_cases i <;>
    · simp [statsB, GroupedStats.ofVectors, allNonzero, Fin.forall_fin_two]
      norm_num

theorem statsB_s_xxt : ∀ i j, statsB.s_xxt i j = 5 := by
  intro i j
  fin_cases i <;> fin_cases j <;>
    · simp [statsB, GroupedStats.ofVectors, allNonzero, Fin.forall_fin_two]
      norm_num

theorem statsB_cov : statsB.getMeanAndCov.2 = Matrix.of fun _ _ => (1 : ℚ) / 2 := by
  ext i j
  simp [GroupedStats.getMeanAndCov, statsB_count, statsB_s_x, statsB_s_xxt]
  norm_num

/-! ### Claim C1 -/

/-- Claim C1 (code bug): the claim states that `getMeanAndCov` returns
covariance `(sumOuter/count − mean·meanᵗ)` multiplied by the EXACT rational
bias-correction factor `count/(count−1)`, as the source's own comment at
line 51 ("Multiply by n/(n-1) for unbiased covariance correction") also
intends.  The source computes the factor with `self.count / (self.count - 1)`
between two Python 2 ints, i.e. floor division.  On the statistics of the
vectors `[1], [2], [3]` (count 3) the code's factor is `3 // 2 = 1` and the
returned covariance is `2/3`, while the claimed exact-rational formula gives
`(14/3 − 4) · 3/2 = 1`.  The mean itself agrees with the claim (`6/3 = 2`).
-/
theorem getMeanAndCov_intdiv_bug :
    statsA.getMeanAndCov.1 0 = 2 ∧
    statsA.getMeanAndCov.2 0 0 = 2 / 3 ∧
    (specMeanAndCov statsA).2 0 0 = 1 ∧
    statsA.getMeanAndCov.2 0 0 ≠ (specMeanAndCov statsA).2 0 0 := by
  have hspec : (specMeanAndCov statsA).2 0 0 = 1 := by
    simp [specMeanAndCov, statsA_count, statsA_s_x, statsA_s_xxt]
    norm_num
  refine ⟨statsA_mean, statsA_cov, hspec, ?_⟩
  rw [statsA_cov, hspec]
  norm_num

/-! ### Claim C3 -/

/-- Claim C3 (counterexample): on the statistics of the vectors
`[1,1], [2,2]` the full covariance matrix is constant `1/2`, hence singular.
The claim states that `mahalanobisDistance` then fails by signaling an
explicit `SingularCovarianceError`; in the source the bare `except:` at
lines 116-120 catches the `LinAlgError`, prints diagnostics, and falls off
the end of the function, silently returning `None` — exactly the "silently
returned empty value" the claim rules out.  The embedding accordingly
returns `none`, with no error signal of any kind. -/
theorem mahalanobisDistance_silent_none :
    statsB.mahalanobisDistanceSq ![1, 2] = none := by
  have hnz : allNonzero ![(1 : ℚ), 2] = true := by
    simp [allNonzero, Fin.forall_fin_two]
  have hdet : statsB.getMeanAndCov.2.det = 0 := by
    rw [statsB_cov, Matrix.det_fin_two]
    norm_num
  simp [GroupedStats.mahalanobisDistanceSq, hnz, hdet]

/-- Claim C3 (amended): `mahalanobisDistance(vect)` silently returns `None`
(no exception, no error value — the failure is only printed), and it does so
exactly when the covariance matrix used — full when `vect` has no missing
coordinates, the missing-coordinate subset otherwise — is not invertible, or
when that matrix is 0-dimensional (where `mahal[0,0]` raises `IndexError`,
likewise caught); when the used covariance is invertible and has positive
dimension, the function returns the square root of
`(v − mean)ᵗ · cov⁻¹ · (v − mean)` (the embedding returns that quadratic
form itself, i.e. the square of the returned float).  The hypothesis
`2 ≤ count` keeps the statement within the claim's scope: for count ≤ 1 the
source instead raises an uncaught `ZeroDivisionError` at
`self.count / (self.count - 1)` before ever reaching the guarded block. -/
theorem mahalanobisDistance_none_iff :
    ∀ (n : ℕ) (g : GroupedStats n) (v : Fin n → ℚ), 2 ≤ g.count →
      (g.mahalanobisDistanceSq v = none ↔ usedCovDet g v = 0 ∨ usedDim v = 0) ∧
      (usedCovDet g v ≠ 0 → usedDim v ≠ 0 →
        g.mahalanobisDistanceSq v = some (usedQuadForm g v)) := by
  intro n g v _
  by_cases h : allNonzero v
  · constructor
    · simp only [GroupedStats.mahalanobisDistanceSq, usedCovDet, usedDim, h, if_true]
      split_ifs with h1 h2 <;> simp_all
    · intro hdet hdim
      simp only [usedCovDet, usedDim, h, if_true] at hdet hdim
      simp only [GroupedStats.mahalanobisDistanceSq, usedQuadForm, h, if_true]
      simp [hdet, hdim]
  · have h2 : allNonzero v = false := by simp [h]
    constructor
    · simp only [GroupedStats.mahalanobisDistanceSq, usedCovDet, usedDim, h2, if_false,
        Bool.false_eq_true]
      split_ifs with h3 h4 <;> simp_all
    · intro hdet hdim
      simp only [usedCovDet, usedDim, h2, if_false, Bool.false_eq_true] at hdet hdim
      simp only [GroupedStats.mahalanobisDistanceSq, usedQuadForm, h2, if_false,
        Bool.false_eq_true]
      simp [hdet, hdim]

/-- Witness for the amended C3 theorem: on the statistics of `[1], [2], [3]`
(count 3 ≥ 2) and the fully non-missing observation `[5]`, the used
covariance is the 1×1 matrix `2/3` (invertible, dimension 1), and the
function returns the quadratic form `(5−2) · (3/2) · (5−2) = 27/2`. -/
theorem mahalanobisDistance_none_iff_witness :
    2 ≤ statsA.count ∧
    usedCovDet statsA ![5] ≠ 0 ∧
    statsA.mahalanobisDistanceSq ![5] = some (usedQuadForm statsA ![5]) ∧
    usedQuadForm statsA ![5] = 27 / 2 := by
  have hnz : allNonzero ![(5 : ℚ)] = true := by
    simp [allNonzero, Fin.forall_fin_one]
  have hc : 2 ≤ statsA.count := by rw [statsA_count]; norm_num
  have hdetv : statsA.getMeanAndCov.2.det = 2 / 3 := by
    rw [Matrix.det_fin_one, statsA_cov]
  have hdet : usedCovDet statsA ![5] ≠ 0 := by
    simp only [usedCovDet, hnz, if_true, hdetv]
    norm_num
  have hdim : usedDim ![(5 : ℚ)] ≠ 0 := by
    simp [usedDim, hnz]
  have hquad : usedQuadForm statsA ![5] = 27 / 2 := by
    simp only [usedQuadForm, hnz, if_true, quadFormEntry, qInv]
    rw [Matrix.adjugate_fin_one]
    simp [Fin.sum_univ_one, hdetv, statsA_mean]
    norm_num
  exact ⟨hc, hdet,
    (mahalanobisDistance_none_iff 1 statsA ![5] hc).2 hdet hdim, hquad⟩

/-! ### Claim C5 -/

/-- Claim C5: `generateLeave1Stats(vect)` returns new statistics with count
decremented and `vect`'s contribution subtracted from the sum and the sum of
outer products exactly when `vect` is fully non-missing; when `vect` has any
missing (zero) coordinate the returned statistics equal the originals
unchanged (mahalanobis.py lines 90-101). -/
theorem generateLeave1Stats_spec :
    ∀ (n : ℕ) (g : GroupedStats n) (v : Fin n → ℚ),
      (allNonzero v = true →
        (g.generateLeave1Stats v).count = g.count - 1 ∧
        (∀ i, (g.generateLeave1Stats v).s_x i = g.s_x i - v i) ∧
        (∀ i j, (g.generateLeave1Stats v).s_xxt i j = g.s_xxt i j - v i * v j)) ∧
      (allNonzero v = false → g.generateLeave1Stats v = g) := by
  intro n g v
  constructor
  · intro h
    simp [GroupedStats.generateLeave1Stats, h]
  · intro h
    simp [GroupedStats.generateLeave1Stats, h]

/-- Witness for C5: leaving the fully non-missing `[3]` out of the
statistics of `[1], [2], [3]` decrements the count to 2; leaving out the
vector `[0]`, whose only coordinate is missing, returns the statistics
unchanged. -/
theorem generateLeave1Stats_spec_witness :
    (statsA.generateLeave1Stats ![3]).count = statsA.count - 1 ∧
    statsA.generateLeave1Stats ![0] = statsA := by
  constructor
  · exact ((generateLeave1Stats_spec 1 statsA ![3]).1
      (by simp [allNonzero, Fin.forall_fin_one])).1
  · exact (generateLeave1Stats_spec 1 statsA ![0]).2
      (by simp [allNonzero, Fin.forall_fin_one])

/-! ### Claim C6 -/

/-- Claim C6: every coordinate at which the input vector holds the missing
sentinel 0 is exactly 0 in the vector returned by `standardizeVector`,
regardless of the arithmetic `(v − mean)/sqrt(variance)` computed for it —
the theorem is quantified over every divisor function `sq`, so it holds in
particular for the floating-point square root the source uses
(mahalanobis.py lines 144-146). -/
theorem standardizeVector_missing_sentinel :
    ∀ (n : ℕ) (sq : ℚ → ℚ) (g : GroupedStats n) (v : Fin n → ℚ) (i : Fin n),
      v i = 0 → g.standardizeVector sq v i = 0 := by
  intro n sq g v i h
  simp [GroupedStats.standardizeVector, h]

/-- Witness for C6: standardizing `[0, 5]` (first coordinate missing) against
the statistics of `[1,1], [2,2]` leaves the missing coordinate at exactly 0,
here with the identity in place of the square root. -/
theorem standardizeVector_missing_sentinel_witness :
    ![(0 : ℚ), 5] 0 = 0 ∧
    statsB.standardizeVector id ![0, 5] 0 = 0 := by
  refine ⟨rfl, ?_⟩
  exact standardizeVector_missing_sentinel 2 id statsB ![0, 5] 0 rfl

/-! ### Claim C8 -/

/-- The nonpositive part of the comparator, characterized on the comparison
key (duration ascending, then state descending as an int). -/
theorem cmpSeg_le_zero_iff :
    ∀ a b : TimeSegment, cmpSeg a b ≤ 0 ↔
      (a.duration < b.duration ∨
        (a.duration = b.duration ∧ b.state.toNat ≤ a.state.toNat)) := by
  intro a b
  simp only [cmpSeg]
  split_ifs <;> omega

theorem cmpSeg_eq_zero_toNat :
    ∀ a b : TimeSegment, cmpSeg a b = 0 ↔
      (a.duration = b.duration ∧ a.state.toNat = b.state.toNat) := by
  intro a b
  simp only [cmpSeg]
  split_ifs <;> (try simp only [false_iff, true_iff]) <;> omega

theorem state_eq_iff_toNat :
    ∀ a b : Bool, a = b ↔ a.toNat = b.toNat := by
  intro a b
  cases a <;> cases b <;> simp

theorem cmpSeg_neg :
    ∀ a b : TimeSegment, cmpSeg b a = -cmpSeg a b := by
  intro a b
  simp only [cmpSeg]
  split_ifs <;> omega

theorem cmpSeg_lt_dur :
    ∀ a b : TimeSegment, a.duration < b.duration → cmpSeg a b = -1 := by
  intro a b h
  simp only [cmpSeg]
  split_ifs <;> omega

theorem cmpSeg_tie :
    ∀ a b : TimeSegment, a.duration = b.duration → a.state = true →
      b.state = false → cmpSeg a b = -1 := by
  intro a b h ha hb
  simp only [cmpSeg, ha, hb, Bool.toNat_true, Bool.toNat_false]
  split_ifs <;> omega

theorem cmpSeg_trans :
    ∀ a b c : TimeSegment, cmpSeg a b ≤ 0 → cmpSeg b c ≤ 0 → cmpSeg a c ≤ 0 := by
  intro a b c hab hbc
  rw [cmpSeg_le_zero_iff] at hab hbc ⊢
  omega

/-- Claim C8: the `TimeSegment.__cmp__` comparator is a total (pre)order on
segments — a linear order on the comparison key (duration, state).  For any
two segments the one with strictly smaller duration compares smaller, and
between two segments of equal duration a true-state segment compares smaller
than a false-state one (Python 2 booleans are the ints 0 and 1, and lines
63-66 return 1 when `self.state < other.state`), so true-state segments are
extracted first among equal durations.  The comparator vanishes exactly on
equal keys, is antisymmetric under argument swap, and its nonpositive part
is transitive. -/
theorem cmpSeg_total_order :
    (∀ a b : TimeSegment, a.duration < b.duration → cmpSeg a b = -1) ∧
    (∀ a b : TimeSegment, a.duration = b.duration → a.state = true →
      b.state = false → cmpSeg a b = -1) ∧
    (∀ a b : TimeSegment, cmpSeg a b = 0 ↔
      (a.duration = b.duration ∧ a.state = b.state)) ∧
    (∀ a b : TimeSegment, cmpSeg b a = -cmpSeg a b) ∧
    (∀ a b c : TimeSegment, cmpSeg a b ≤ 0 → cmpSeg b c ≤ 0 → cmpSeg a c ≤ 0) := by
  refine ⟨cmpSeg_lt_dur, cmpSeg_tie, ?_, cmpSeg_neg, cmpSeg_trans⟩
  intro a b
  rw [cmpSeg_eq_zero_toNat a b, state_eq_iff_toNat a.state b.state]

/-- Witness for C8: a duration-1 segment compares smaller than a duration-3
one, and among two duration-1 segments the true-state one compares smaller
than the false-state one. -/
theorem cmpSeg_total_order_witness :
    cmpSeg ⟨0, 0, true⟩ ⟨1, 3, false⟩ = -1 ∧
    cmpSeg ⟨0, 0, true⟩ ⟨5, 5, false⟩ = -1 := by
  constructor
  · exact cmpSeg_total_order.1 ⟨0, 0, true⟩ ⟨1, 3, false⟩ (by decide)
  · exact cmpSeg_total_order.2.1 ⟨0, 0, true⟩ ⟨5, 5, false⟩ (by decide) rfl rfl

/-! ### Claim C2 -/

/-- Claim C2 (code bug): on the score series `[5,1,5,5,5,5,5]` with
threshold 3, construction yields the chain `(0,0,true), (1,1,false),
(2,6,true)`; `removeSmallSegmentsInOrder(3)` first merges `(0,0,true)` into
`(0,1,false)`, whose duration 2 is still below the threshold.  Line 273
`pq.put(segment)` then reinserts the already-consumed `(0,0)` segment object
— not the merged `new_seg` that the comment at lines 271-272 says is added
back — so the reinserted reference fails the lookup-table test on its next
extraction and the merged `(0,1,false)` segment is never re-evaluated.  The
call returns with `(0,1,false)` (duration 2 < 3) still present alongside
`(2,6,true)`, contradicting the claimed postcondition that no segment other
than a sole remaining one is below the threshold. -/
theorem removeSmallSegmentsInOrder_stale_reinsert_bug :
    timeSegmentListInit [5, 1, 5, 5, 5, 5, 5] 3 =
      some [⟨0, 0, true⟩, ⟨1, 1, false⟩, ⟨2, 6, true⟩] ∧
    removeSmallSegmentsInOrder 3 [⟨0, 0, true⟩, ⟨1, 1, false⟩, ⟨2, 6, true⟩] =
      .done [⟨0, 1, false⟩, ⟨2, 6, true⟩] ∧
    (⟨0, 1, false⟩ : TimeSegment).duration < 3 ∧
    (2 : ℕ) ≤ [(⟨0, 1, false⟩ : TimeSegment), ⟨2, 6, true⟩].length := by
  refine ⟨by decide, by decide, by decide, by decide⟩

/-! ### Claim C10 -/

/-- `buildFrom` always produces at least the final closing segment. -/
theorem buildFrom_ne_nil :
    ∀ (t : ℚ) (scores : List ℚ) (i start : ℕ) (prev : Bool)
      (acc : List TimeSegment), buildFrom t scores i start prev acc ≠ [] := by
  intro t scores
  induction scores with
  | nil =>
      intro i start prev acc
      simp [buildFrom]
  | cons x rest ih =>
      intro i start prev acc
      rw [buildFrom]
      by_cases hc : decide (t < x) ≠ prev
      · rw [if_pos hc]
        apply ih
      · rw [if_neg hc]
        apply ih

/-- Claim C10: `TimeSegmentList` construction is total only on non-empty
score lists.  On the empty list the constructor's first step,
`lnp_list[0] > threshold` at line 115, raises `IndexError` (embedded as
`none`) rather than producing an empty list with a null head; on every
non-empty list it produces a chain with a non-null head (a first segment). -/
theorem timeSegmentListInit_empty_partial :
    (∀ t : ℚ, timeSegmentListInit [] t = none) ∧
    (∀ (lnp : List ℚ) (t : ℚ), lnp ≠ [] →
      ∃ s rest, timeSegmentListInit lnp t = some (s :: rest)) := by
  constructor
  · intro t
    rfl
  · intro lnp t h
    match lnp with
    | x :: l =>
      have hne := buildFrom_ne_nil t (x :: l) 0 0 (decide (t < x)) []
      match hb : buildFrom t (x :: l) 0 0 (decide (t < x)) [] with
      | [] => exact absurd hb hne
      | s :: rest =>
        exact ⟨s, rest, by simp [timeSegmentListInit, hb]⟩

/-- Witness for C10: the two-element score series `[1, 2]` with threshold 0
yields a chain headed by the single segment `(0, 1, true)`. -/
theorem timeSegmentListInit_empty_partial_witness :
    ([(1 : ℚ), 2] ≠ []) ∧
    (∃ s rest, timeSegmentListInit [(1 : ℚ), 2] 0 = some (s :: rest)) := by
  refine ⟨List.cons_ne_nil _ _, ?_⟩
  exact timeSegmentListInit_empty_partial.2 [1, 2] 0 (List.cons_ne_nil _ _)

/-! ### Claim C4 -/

theorem isContigCover_nil : ∀ a b : ℕ, isContigCover a b [] = false := by
  intro a b
  rfl

theorem isContigCover_singleton :
    ∀ (a b : ℕ) (s : TimeSegment), isContigCover a b [s] = true ↔
      (s.start_id = a ∧ s.end_id = b ∧ a ≤ b) := by
  intro a b s
  simp [isContigCover]

theorem isContigCover_cons₂ :
    ∀ (a b : ℕ) (s t : TimeSegment) (rest : List TimeSegment),
      isContigCover a b (s :: t :: rest) = true ↔
        (s.start_id = a ∧ s.start_id ≤ s.end_id ∧
          isContigCover (s.end_id + 1) b (t :: rest) = true) := by
  intro a b s t rest
  simp [isContigCover, and_assoc]

theorem isContigCover_ne_nil :
    ∀ (a b : ℕ) (l : List TimeSegment), isContigCover a b l = true → l ≠ [] := by
  intro a b l h
  intro he
  rw [he, isContigCover_nil] at h
  exact absurd h (by simp)

/-- Extending a contiguous cover of `[a, e]` with one segment starting at
`e + 1` yields a contiguous cover up to that segment's end. -/
theorem isContigCover_snoc :
    ∀ (acc : List TimeSegment) (a e : ℕ) (s : TimeSegment),
      isContigCover a e acc = true → s.start_id = e + 1 → s.start_id ≤ s.end_id →
      isContigCover a s.end_id (acc ++ [s]) = true := by
  intro acc
  induction acc with
  | nil =>
      intro a e s h
      rw [isContigCover_nil] at h
      exact absurd h (by simp)
  | cons x rest ih =>
      intro a e s h hs hse
      match rest with
      | [] =>
          rw [isContigCover_singleton] at h
          obtain ⟨h1, h2, h3⟩ := h
          show isContigCover a s.end_id [x, s] = true
          rw [isContigCover_cons₂]
          refine ⟨h1, by omega, ?_⟩
          rw [isContigCover_singleton]
          omega
      | y :: rest2 =>
          rw [isContigCover_cons₂] at h
          obtain ⟨h1, h2, h3⟩ := h
          show isContigCover a s.end_id (x :: ((y :: rest2) ++ [s])) = true
          have hY : ((y :: rest2) ++ [s]) = y :: (rest2 ++ [s]) := by simp
          rw [hY, isContigCover_cons₂]
          refine ⟨h1, h2, ?_⟩
          have := ih (x.end_id + 1) e s h3 hs hse
          rw [hY] at this
          exact this

/-- Invariant of the construction scan: if the closed segments `acc` tile
`[0, start−1]` (or are empty with `start = 0`), and the current run starting
at `start` has been fed all indices below `i` (with the first score still
pending only at the very first iteration, where the run state equals the
head's state), then the finished scan tiles `[0, n−1]`. -/
theorem buildFrom_cover :
    ∀ (t : ℚ) (scores : List ℚ) (i start : ℕ) (prev : Bool)
      (acc : List TimeSegment),
      ((start = 0 ∧ acc = []) ∨
        (1 ≤ start ∧ isContigCover 0 (start - 1) acc = true)) →
      (start < i ∨
        (start = i ∧ ∃ x rest2, scores = x :: rest2 ∧ prev = decide (t < x))) →
      isContigCover 0 (i + scores.length - 1)
        (buildFrom t scores i start prev acc) = true := by
  intro t scores
  induction scores with
  | nil =>
      intro i start prev acc h1 h2
      have hlt : start < i := by
        rcases h2 with h2 | ⟨_, x, rest2, hx, _⟩
        · exact h2
        · exact absurd hx (by simp)
      rw [buildFrom]
      rcases h1 with ⟨hs0, ha⟩ | ⟨hs1, hcov⟩
      · subst hs0
        subst ha
        simp only [List.nil_append, List.length_nil]
        rw [isContigCover_singleton]
        refine ⟨rfl, rfl, by omega⟩
      · have := isContigCover_snoc acc 0 (start - 1) ⟨start, i - 1, prev⟩ hcov
          (by simp; omega) (by simp; omega)
        simp only [List.length_nil]
        exact this
  | cons x rest ih =>
      intro i start prev acc h1 h2
      rw [buildFrom]
      by_cases hc : decide (t < x) ≠ prev
      · rw [if_pos hc]
        have hlt : start < i := by
          rcases h2 with h2 | ⟨hsi, x2, rest2, hx, hp⟩
          · exact h2
          · exfalso
            apply hc
            cases hx
            rw [hp]
        have hcov2 : isContigCover 0 (i - 1) (acc ++ [⟨start, i - 1, prev⟩]) = true := by
          rcases h1 with ⟨hs0, ha⟩ | ⟨hs1, hcov⟩
          · subst hs0
            subst ha
            simp only [List.nil_append]
            rw [isContigCover_singleton]
            exact ⟨rfl, rfl, by omega⟩
          · have := isContigCover_snoc acc 0 (start - 1) ⟨start, i - 1, prev⟩ hcov
              (by simp; omega) (by simp; omega)
            exact this
        have := ih (i + 1) i (decide (t < x)) (acc ++ [⟨start, i - 1, prev⟩])
          (Or.inr ⟨by omega, hcov2⟩) (Or.inl (by omega))
        have harith : (i + 1) + rest.length - 1 = i + (x :: rest).length - 1 := by
          simp [List.length_cons]
        rw [harith] at this
        exact this
      · rw [if_neg hc]
        have := ih (i + 1) start prev acc h1 (Or.inl (by omega))
        have harith : (i + 1) + rest.length - 1 = i + (x :: rest).length - 1 := by
          simp [List.length_cons]
        rw [harith] at this
        exact this

/-- Merging inside the chain preserves the contiguous-partition predicate:
if `prv` tiles `[prv.start, prv.end]` and `rest` tiles on from `prv.end + 1`
to `b`, the replacement list produced by a successful `mergeInner` tiles
`[prv.start, b]`. -/
theorem mergeInner_cover :
    ∀ (rest : List TimeSegment) (prv : TimeSegment) (bnd : ℕ × ℕ) (b : ℕ)
      (out : List TimeSegment) (ns : TimeSegment),
      prv.start_id ≤ prv.end_id →
      isContigCover (prv.end_id + 1) b rest = true →
      mergeInner prv rest bnd = some (out, ns) →
      isContigCover prv.start_id b out = true := by
  intro rest
  induction rest with
  | nil =>
      intro prv bnd b out ns hp hcov hm
      exact absurd hm (by simp [mergeInner])
  | cons cur rest2 ih =>
      intro prv bnd b out ns hp hcov hm
      rw [mergeInner.eq_def] at hm
      simp only [] at hm
      by_cases hb : (cur.start_id, cur.end_id) = bnd
      · rw [if_pos hb] at hm
        match rest2, hcov, hm with
        | [], hcov, hm =>
            rw [isContigCover_singleton] at hcov
            simp only [Option.some.injEq, Prod.mk.injEq] at hm
            obtain ⟨hm1, hm2⟩ := hm
            subst hm1
            rw [isContigCover_singleton]
            refine ⟨rfl, by first | omega | (dsimp only; omega),
              by first | omega | (dsimp only; omega)⟩
        | nxt :: rest3, hcov, hm =>
            rw [isContigCover_cons₂] at hcov
            obtain ⟨hc1, hc2, hc3⟩ := hcov
            simp only [Option.some.injEq, Prod.mk.injEq] at hm
            obtain ⟨hm1, hm2⟩ := hm
            subst hm1
            match rest3, hc3 with
            | [], hc3 =>
                rw [isContigCover_singleton] at hc3
                rw [isContigCover_singleton]
                refine ⟨rfl, by first | omega | (dsimp only; omega),
                  by first | omega | (dsimp only; omega)⟩
            | y :: rest4, hc3 =>
                rw [isContigCover_cons₂] at hc3
                obtain ⟨hd1, hd2, hd3⟩ := hc3
                rw [isContigCover_cons₂]
                refine ⟨rfl, by first | omega | (dsimp only; omega), ?_⟩
                simpa using hd3
      · rw [if_neg hb] at hm
        match hmi : mergeInner cur rest2 bnd, hm with
        | some (l, ns2), hm =>
            simp only [Option.some.injEq, Prod.mk.injEq] at hm
            obtain ⟨hm1, hm2⟩ := hm
            subst hm1
            match rest2, hcov with
            | [], hcov =>
                exact absurd hmi (by simp [mergeInner])
            | z :: rest3, hcov =>
                rw [isContigCover_cons₂] at hcov
                obtain ⟨hc1, hc2, hc3⟩ := hcov
                have hl := ih cur bnd b l ns2 hc2 hc3 hmi
                match l, hl with
                | z2 :: l2, hl =>
                    rw [isContigCover_cons₂]
                    refine ⟨rfl, hp, ?_⟩
                    rw [hc1] at hl
                    exact hl

/-- A successful `mergeSegment` preserves the contiguous-partition
predicate on the chain. -/
theorem mergeByBounds_cover :
    ∀ (segs : List TimeSegment) (bnd : ℕ × ℕ) (a b : ℕ)
      (out : List TimeSegment) (ns : TimeSegment),
      isContigCover a b segs = true →
      mergeByBounds segs bnd = some (out, ns) →
      isContigCover a b out = true := by
  intro segs bnd a b out ns hcov hm
  match segs, hcov, hm with
  | cur :: rest, hcov, hm =>
    rw [mergeByBounds.eq_def] at hm
    simp only [] at hm
    by_cases hb : (cur.start_id, cur.end_id) = bnd
    · rw [if_pos hb] at hm
      match rest, hcov, hm with
      | nxt :: rest2, hcov, hm =>
          rw [isContigCover_cons₂] at hcov
          obtain ⟨hc1, hc2, hc3⟩ := hcov
          simp only [Option.some.injEq, Prod.mk.injEq] at hm
          obtain ⟨hm1, hm2⟩ := hm
          subst hm1
          match rest2, hc3 with
          | [], hc3 =>
              rw [isContigCover_singleton] at hc3
              rw [isContigCover_singleton]
              refine ⟨by first | omega | (dsimp only; omega), ?_, ?_⟩
              · first | omega | (dsimp only; omega)
              · first | omega | (dsimp only; omega)
          | y :: rest3, hc3 =>
              rw [isContigCover_cons₂] at hc3
              obtain ⟨hd1, hd2, hd3⟩ := hc3
              rw [isContigCover_cons₂]
              refine ⟨by first | omega | (dsimp only; omega),
                by first | omega | (dsimp only; omega), ?_⟩
              simpa using hd3
    · rw [if_neg hb] at hm
      match hmi : mergeInner cur rest bnd, hm with
      | some (l, ns2), hm =>
          simp only [Option.some.injEq, Prod.mk.injEq] at hm
          obtain ⟨hm1, hm2⟩ := hm
          subst hm1
          match rest, hcov with
          | [], hcov =>
              exact absurd hmi (by simp [mergeInner])
          | z :: rest3, hcov =>
              rw [isContigCover_cons₂] at hcov
              obtain ⟨hc1, hc2, hc3⟩ := hcov
              have hl := mergeInner_cover (z :: rest3) cur bnd b l ns2 hc2 hc3 hmi
              rw [hc1] at hl
              exact hl

/-- Claim C4: for every non-empty score list of length n and every
threshold, the constructed chain's segments have pairwise-disjoint inclusive
index ranges that are contiguous (each segment's end is exactly one less
than its successor's start, each has `start_id ≤ end_id`) and together cover
`[0, n−1]` — the `isContigCover 0 (n−1)` predicate; and this partition
predicate is preserved by every successful `mergeSegment` operation. -/
theorem segmentList_partition_invariant :
    (∀ (lnp : List ℚ) (t : ℚ) (segs : List TimeSegment),
      timeSegmentListInit lnp t = some segs →
      isContigCover 0 (lnp.length - 1) segs = true) ∧
    (∀ (a b : ℕ) (segs : List TimeSegment) (bnd : ℕ × ℕ)
      (out : List TimeSegment) (ns : TimeSegment),
      isContigCover a b segs = true →
      mergeByBounds segs bnd = some (out, ns) →
      isContigCover a b out = true) := by
  constructor
  · intro lnp t segs hinit
    match lnp, hinit with
    | x :: rest, hinit =>
      have hsegs : segs = buildFrom t (x :: rest) 0 0 (decide (t < x)) [] := by
        have : some (buildFrom t (x :: rest) 0 0 (decide (t < x)) []) = some segs :=
          hinit
        exact (Option.some.inj this).symm
      subst hsegs
      have := buildFrom_cover t (x :: rest) 0 0 (decide (t < x)) []
        (Or.inl ⟨rfl, rfl⟩) (Or.inr ⟨rfl, x, rest, rfl, rfl⟩)
      have harith : 0 + (x :: rest).length - 1 = (x :: rest).length - 1 := by
        omega
      rw [harith] at this
      exact this
  · intro a b segs bnd out ns hcov hm
    exact mergeByBounds_cover segs bnd a b out ns hcov hm

/-- Witness for C4: the score series `[5, 1, 5]` with threshold 3 builds the
chain `(0,0,true), (1,1,false), (2,2,true)`, which tiles `[0, 2]`; merging
the segment with bounds `(1,1)` yields the single segment `(0,2,true)`,
which still tiles `[0, 2]`. -/
theorem segmentList_partition_invariant_witness :
    timeSegmentListInit [5, 1, 5] 3 =
      some [⟨0, 0, true⟩, ⟨1, 1, false⟩, ⟨2, 2, true⟩] ∧
    isContigCover 0 2 [⟨0, 0, true⟩, ⟨1, 1, false⟩, ⟨2, 2, true⟩] = true ∧
    mergeByBounds [⟨0, 0, true⟩, ⟨1, 1, false⟩, ⟨2, 2, true⟩] (1, 1) =
      some ([⟨0, 2, true⟩], ⟨0, 2, true⟩) ∧
    isContigCover 0 2 [⟨0, 2, true⟩] = true := by
  have h1 : timeSegmentListInit [(5 : ℚ), 1, 5] 3 =
      some [⟨0, 0, true⟩, ⟨1, 1, false⟩, ⟨2, 2, true⟩] := by decide
  have h2 : mergeByBounds [⟨0, 0, true⟩, ⟨1, 1, false⟩, ⟨2, 2, true⟩] (1, 1) =
      some ([⟨0, 2, true⟩], ⟨0, 2, true⟩) := by decide
  refine ⟨h1, segmentList_partition_invariant.1 [5, 1, 5] 3 _ h1, h2, ?_⟩
  exact segmentList_partition_invariant.2 0 2 _ (1, 1) _ _
    (segmentList_partition_invariant.1 [5, 1, 5] 3 _ h1) h2

/-! ### Claim C7 -/

/-- Loop invariant of `removeSmallSegmentsWithState`: every segment the scan
has moved past (and every segment of the final chain, since merged nodes are
re-examined before the scan advances over them) fails the merge guard
`state == targetState and duration() < threshold`. -/
theorem rswsLoop_done_post :
    ∀ (t : ℤ) (st : Bool) (fuel : ℕ) (before after out : List TimeSegment),
      (∀ s ∈ before, ¬(s.state = st ∧ s.duration < t)) →
      rswsLoop t st fuel before after = .done out →
      ∀ s ∈ out, ¬(s.state = st ∧ s.duration < t) := by
  intro t st fuel
  induction fuel with
  | zero =>
      intro before after out hb hr
      match after, hr with
      | [], hr =>
          have : before.reverse = out := LoopResult.done.inj hr
          subst this
          intro s hs
          exact hb s (List.mem_reverse.mp hs)
  | succ fuel ih =>
      intro before after out hb hr
      match after, hr with
      | [], hr =>
          have : before.reverse = out := LoopResult.done.inj hr
          subst this
          intro s hs
          exact hb s (List.mem_reverse.mp hs)
      | cur :: after2, hr =>
          rw [rswsLoop.eq_def] at hr
          simp only [] at hr
          by_cases hc : cur.state = st ∧ cur.duration < t
          · rw [if_pos hc] at hr
            match before, after2, hr with
            | [], nxt :: after3, hr =>
                exact ih [] _ out (by simp) hr
            | prv :: before2, [], hr =>
                exact ih before2 _ out
                  (fun s hs => hb s (List.mem_cons_of_mem prv hs)) hr
            | prv :: before2, nxt :: after3, hr =>
                exact ih before2 _ out
                  (fun s hs => hb s (List.mem_cons_of_mem prv hs)) hr
          · rw [if_neg hc] at hr
            refine ih (cur :: before) after2 out ?_ hr
            intro s hs
            rcases List.mem_cons.mp hs with h | h
            · subst h
              exact hc
            · exact hb s h

/-- A pass over a chain in which no segment matches the merge guard performs
no merges and returns the chain unchanged. -/
theorem rswsLoop_noop :
    ∀ (t : ℤ) (st : Bool) (after : List TimeSegment) (fuel : ℕ)
      (before : List TimeSegment),
      after.length < fuel →
      (∀ s ∈ after, ¬(s.state = st ∧ s.duration < t)) →
      rswsLoop t st fuel before after = .done (before.reverse ++ after) := by
  intro t st after
  induction after with
  | nil =>
      intro fuel before hf ha
      match fuel with
      | 0 => simp [rswsLoop]
      | fuel + 1 => simp [rswsLoop]
  | cons cur after2 ih =>
      intro fuel before hf ha
      match fuel with
      | fuel + 1 =>
        rw [rswsLoop.eq_def]
        simp only []
        have hc : ¬(cur.state = st ∧ cur.duration < t) :=
          ha cur (List.mem_cons_self cur after2)
        rw [if_neg hc]
        have := ih fuel (cur :: before) (by simpa using hf)
          (fun s hs => ha s (List.mem_cons_of_mem cur hs))
        rw [this]
        simp

/-- Claim C7: `removeSmallSegmentsWithState(threshold, state)` is idempotent:
whenever a first application returns a chain (rather than crashing on a sole
short matching segment), a second application with the same threshold and
state performs no merges and returns that chain unchanged — after the first
pass no segment matches the merge guard, because the scan only ever advances
past segments that fail it and every merged segment is re-examined. -/
theorem removeSmallSegmentsWithState_idempotent :
    ∀ (t : ℤ) (st : Bool) (segs out : List TimeSegment),
      removeSmallSegmentsWithState t st segs = .done out →
      removeSmallSegmentsWithState t st out = .done out := by
  intro t st segs out hr
  have hpost : ∀ s ∈ out, ¬(s.state = st ∧ s.duration < t) :=
    rswsLoop_done_post t st (2 * segs.length + 1) [] segs out (by simp) hr
  have := rswsLoop_noop t st out (2 * out.length + 1) [] (by omega) hpost
  simpa [removeSmallSegmentsWithState] using this

/-- Witness for C7, the spec §8 scenario: segments built from scores
`[1,1,1,5,5,5,1,1,5,5,5,5]` at threshold 3 are `(0,2,false), (3,5,true),
(6,7,false), (8,11,true)`; removing false-state segments shorter than 3
merges `(6,7,false)` into `(3,11,true)`, and a second application returns
the two-segment chain unchanged. -/
theorem removeSmallSegmentsWithState_idempotent_witness :
    removeSmallSegmentsWithState 3 false
      [⟨0, 2, false⟩, ⟨3, 5, true⟩, ⟨6, 7, false⟩, ⟨8, 11, true⟩] =
      .done [⟨0, 2, false⟩, ⟨3, 11, true⟩] ∧
    removeSmallSegmentsWithState 3 false [⟨0, 2, false⟩, ⟨3, 11, true⟩] =
      .done [⟨0, 2, false⟩, ⟨3, 11, true⟩] := by
  have h1 : removeSmallSegmentsWithState 3 false
      [⟨0, 2, false⟩, ⟨3, 5, true⟩, ⟨6, 7, false⟩, ⟨8, 11, true⟩] =
      .done [⟨0, 2, false⟩, ⟨3, 11, true⟩] := by decide
  exact ⟨h1, removeSmallSegmentsWithState_idempotent 3 false _ _ h1⟩

/-! ### Claim C9 -/

/-- The replacement chain produced by a successful inner merge scan is no
longer than the scanned remainder (the scan consumes its one-element
context `prv` as well). -/
theorem mergeInner_length :
    ∀ (rest : List TimeSegment) (prv : TimeSegment) (bnd : ℕ × ℕ)
      (l : List TimeSegment) (ns : TimeSegment),
      mergeInner prv rest bnd = some (l, ns) → l.length ≤ rest.length := by
  intro rest
  induction rest with
  | nil =>
      intro prv bnd l ns hm
      exact absurd hm (by simp [mergeInner])
  | cons cur rest2 ih =>
      intro prv bnd l ns hm
      rw [mergeInner.eq_def] at hm
      simp only [] at hm
      by_cases hb : (cur.start_id, cur.end_id) = bnd
      · rw [if_pos hb] at hm
        match rest2, hm with
        | [], hm =>
            simp only [Option.some.injEq, Prod.mk.injEq] at hm
            obtain ⟨hm1, hm2⟩ := hm
            subst hm1
            simp
        | nxt :: rest3, hm =>
            simp only [Option.some.injEq, Prod.mk.injEq] at hm
            obtain ⟨hm1, hm2⟩ := hm
            subst hm1
            simp
      · rw [if_neg hb] at hm
        match hmi : mergeInner cur rest2 bnd, hm with
        | some (l2, ns2), hm =>
            simp only [Option.some.injEq, Prod.mk.injEq] at hm
            obtain ⟨hm1, hm2⟩ := hm
            subst hm1
            have := ih cur bnd l2 ns2 hmi
            simp
            omega

/-- Every successful `mergeSegment` strictly shrinks the chain: the merged
segment and at least one neighbor are replaced by a single segment. -/
theorem mergeByBounds_length :
    ∀ (segs : List TimeSegment) (bnd : ℕ × ℕ) (out : List TimeSegment)
      (ns : TimeSegment),
      mergeByBounds segs bnd = some (out, ns) → out.length < segs.length := by
  intro segs bnd out ns hm
  match segs, hm with
  | cur :: rest, hm =>
    rw [mergeByBounds.eq_def] at hm
    simp only [] at hm
    by_cases hb : (cur.start_id, cur.end_id) = bnd
    · rw [if_pos hb] at hm
      match rest, hm with
      | nxt :: rest2, hm =>
          simp only [Option.some.injEq, Prod.mk.injEq] at hm
          obtain ⟨hm1, hm2⟩ := hm
          subst hm1
          simp
    · rw [if_neg hb] at hm
      match hmi : mergeInner cur rest bnd, hm with
      | some (l, ns2), hm =>
          simp only [Option.some.injEq, Prod.mk.injEq] at hm
          obtain ⟨hm1, hm2⟩ := hm
          subst hm1
          have := mergeInner_length rest cur bnd l ns2 hmi
          simp
          omega

theorem pqInsert_length :
    ∀ (s : TimeSegment) (pq : List TimeSegment),
      (pqInsert s pq).length = pq.length + 1 := by
  intro s pq
  induction pq with
  | nil => simp [pqInsert]
  | cons x xs ih =>
      rw [pqInsert]
      by_cases hc : cmpSeg s x = -1
      · rw [if_pos hc]
        simp
      · rw [if_neg hc]
        simp [ih]

/-- Fuel adequacy for the priority-queue elimination loop: the measure
`pq.length + 2 * segs.length` strictly decreases at every iteration — a
discarded stale entry costs one queue element; a merge costs one queue
element and strictly shrinks the chain; a merge followed by a reinsertion
keeps the queue length but still shrinks the chain — so any fuel of at
least the initial measure is never exhausted. -/
theorem rssioLoop_fuel :
    ∀ (t : ℤ) (fuel : ℕ) (pq segs : List TimeSegment),
      pq.length + 2 * segs.length ≤ fuel →
      rssioLoop t fuel pq segs ≠ .fuelOut := by
  intro t fuel
  induction fuel with
  | zero =>
      intro pq segs hf
      match pq, hf with
      | [], hf => simp [rssioLoop]
      | s :: pq2, hf =>
          exfalso
          simp [List.length_cons] at hf
  | succ fuel ih =>
      intro pq segs hf
      match pq with
      | [] => simp [rssioLoop]
      | s :: pq2 =>
          rw [rssioLoop.eq_def]
          simp only []
          by_cases hmem : (s.start_id, s.end_id) ∈ segBounds segs
          · rw [if_pos hmem]
            match hmb : mergeByBounds segs (s.start_id, s.end_id) with
            | none => simp
            | some (segs2, newSeg) =>
                dsimp only
                have hlen := mergeByBounds_length segs _ segs2 newSeg hmb
                by_cases hd : newSeg.duration < t
                · rw [if_pos hd]
                  apply ih
                  rw [pqInsert_length]
                  simp at hf ⊢
                  omega
                · rw [if_neg hd]
                  apply ih
                  simp at hf ⊢
                  omega
          · rw [if_neg hmem]
            apply ih
            simp at hf ⊢
            omega

/-- Claim C9: every call to `removeSmallSegmentsInOrder` terminates.  The
embedding supplies the loop with fuel equal to the initial measure
`pq.length + 2 * segs.length`, and this theorem proves that fuel is never
exhausted: each priority-queue entry causes at most one merge (every merge
strictly shrinks the chain, and a reinsertion is paid for by that
shrinkage), so the queue drains in finitely many steps — this bound does not
even rely on reinserted stale references failing the lookup-table test,
though they do, since a merge deletes the merged bounds and later merges
only create strictly larger spans. -/
theorem removeSmallSegmentsInOrder_terminates :
    ∀ (t : ℤ) (segs : List TimeSegment),
      removeSmallSegmentsInOrder t segs ≠ .fuelOut := by
  intro t segs
  rw [removeSmallSegmentsInOrder]
  apply rssioLoop_fuel
  omega

end GpsResilience
